import Mathlib

/-!
# Verification of the financial_analyzer streaming data plane

A shallow embedding, in Lean 4, of the core data-plane components of the
`financial_analyzer` stock service:

* `OHLCVBuffer` (backend/stock-service/app/stocks/OHLCV_buffer.py) — a
  bounded sorted map from minute-aligned timestamps to OHLCV candles;
* `StockHandler` (backend/stock-service/app/stocks/stockHandler.py) — the
  per-symbol aggregator folding trades into the buffer;
* `WebSocketManager.subscribe/unsubscribe/_auto_reconnect`
  (backend/stock-service/app/stocks/websocket_manager.py) — the in-memory
  subscription registry and its upstream control frames;
* `broadcast_update` / `stream_stock_data` (backend/stock-service/app/main.py)
  — the SSE fan-out slots;
* `create_persistent_subscription` (backend/stock-service/app/main.py) — the
  subscribe orchestration endpoint.

Embedding conventions:

* Python `float` prices are modelled as `ℚ`.  The source only assigns,
  compares, `max`es and `min`s prices (no float arithmetic on them), so the
  model is exact.  Sizes/volumes are Python ints, modelled as `ℤ`.
* The source keys the buffer by RFC-3339 strings produced with
  `datetime.fromisoformat(ts.replace("Z","+00:00"))`, truncation of seconds
  and microseconds, and `isoformat().replace("+00:00","Z")`.  We model a
  parsed timestamp as a `DateTime` record; the ISO rendering of two parsed
  timestamps is equal iff the records are equal, so buffer keys are modelled
  as (minute-aligned) `DateTime` values.  `datetime.fromisoformat` is Python
  library code, so parsing is modelled as an oracle: callers of
  `process_trade` receive `Option DateTime` (`none` = missing or
  unparseable).  The `SortedDict` key order is modelled by the lexicographic
  order on the field tuple, which agrees with the lexicographic string order
  on the equal-width `Z`-suffixed keys all claims are about.
* `async` functions are modelled as pure state transformers; I/O effects
  (store upserts, upstream control frames, SSE callback emissions) are
  returned as explicit event lists.  Whether an upstream websocket send
  succeeds is an oracle boolean (`sendOk`) supplied per call.
-/

namespace FinancialAnalyzer

/-! ## Timestamps

A parsed `datetime` value: what `datetime.fromisoformat` returns after the
`"Z" → "+00:00"` substitution done in `stockHandler.py`.  `tzOffsetMinutes =
none` models a naive datetime (input without a UTC offset). -/

structure DateTime where
  year : ℕ
  month : ℕ
  day : ℕ
  hour : ℕ
  minute : ℕ
  second : ℕ
  microsecond : ℕ
  tzOffsetMinutes : Option ℤ
deriving DecidableEq, Repr

namespace DateTime

/-- `dt.replace(second=0, microsecond=0)`: the minute-aligned timestamp used
as the candle key in `StockHandler.process_trade` / `process_candle`. -/
def minuteAlign (dt : DateTime) : DateTime :=
  { dt with second := 0, microsecond := 0 }

/-- Injective encoding of a `DateTime` into a `List ℤ`, used to transport the
lexicographic order of `List ℤ` onto `DateTime`.  The last two entries encode
`tzOffsetMinutes` (presence flag, then value). -/
def fields (dt : DateTime) : List ℤ :=
  [(dt.year : ℤ), (dt.month : ℤ), (dt.day : ℤ), (dt.hour : ℤ),
   (dt.minute : ℤ), (dt.second : ℤ), (dt.microsecond : ℤ),
   (match dt.tzOffsetMinutes with | none => 0 | some _ => 1),
   (match dt.tzOffsetMinutes with | none => 0 | some m => m)]

/-- Key order of the buffer's `SortedDict`: lexicographic on the field list.
On the minute-aligned `Z`-suffixed keys this coincides with the
lexicographic (= chronological) order of the ISO-rendered key strings. -/
def klt (a b : DateTime) : Prop := a.fields < b.fields

instance : DecidableRel klt := fun a b => by
  unfold klt; infer_instance

theorem fields_injective : Function.Injective fields := by
  rintro ⟨ya, ma, da, ha, mia, sa, usa, oa⟩ ⟨yb, mb, db, hb, mib, sb, usb, ob⟩ h
  simp only [fields, List.cons.injEq, and_true] at h
  obtain ⟨h1, h2, h3, h4, h5, h6, h7, h8, h9⟩ := h
  cases oa <;> cases ob <;> simp_all

theorem klt_trans {a b c : DateTime} (h1 : klt a b) (h2 : klt b c) : klt a c :=
  lt_trans h1 h2

theorem klt_irrefl (a : DateTime) : ¬ klt a a := lt_irrefl _

theorem klt_trichotomy (a b : DateTime) : klt a b ∨ a = b ∨ klt b a := by
  rcases lt_trichotomy a.fields b.fields with h | h | h
  · exact Or.inl h
  · exact Or.inr (Or.inl (fields_injective h))
  · exact Or.inr (Or.inr h)

theorem klt_ne {a b : DateTime} (h : klt a b) : a ≠ b := by
  rintro rfl; exact klt_irrefl a h

end DateTime

/-! ## Candles and the OHLCV buffer

`OHLCVBuffer` (OHLCV_buffer.py) stores a `SortedDict` from minute timestamps
to candle dicts `{"open", "high", "low", "close", "volume"}`, bounded by
`maxlen`.  We model the `SortedDict` as a list of key-value pairs kept sorted
by `DateTime.klt` (ascending), mirroring the sorted iteration order. -/

structure Candle where
  open_ : ℚ
  high : ℚ
  low : ℚ
  close : ℚ
  volume : ℤ
deriving DecidableEq, Repr

/-- The underlying key-value storage of a `SortedDict[str, Dict]`. -/
abbrev Entries := List (DateTime × Candle)

/-- `timestamp in self.data` / `self.data[timestamp]`: first value bound to
the key (keys are unique in a sorted dict). -/
def findVal (ts : DateTime) : Entries → Option Candle
  | [] => none
  | (k, c) :: rest => if ts = k then some c else findVal ts rest

/-- `self.data[timestamp] = value` on a `SortedDict`: insert at the sorted
position, replacing an existing binding for the same key. -/
def insertSorted (ts : DateTime) (c : Candle) : Entries → Entries
  | [] => [(ts, c)]
  | (k, v) :: rest =>
    if DateTime.klt ts k then (ts, c) :: (k, v) :: rest
    else if ts = k then (ts, c) :: rest
    else (k, v) :: insertSorted ts c rest

/-- `while len(self.data) > self.maxlen: self.data.popitem(index=0)` —
repeatedly evict the smallest (oldest) key until the bound holds. -/
def enforceMaxlen (maxlen : ℕ) : Entries → Entries
  | [] => []
  | x :: t => if (x :: t).length ≤ maxlen then x :: t else enforceMaxlen maxlen t

structure OHLCVBuffer where
  data : Entries
  maxlen : ℕ
deriving DecidableEq, Repr

namespace OHLCVBuffer

/-- `OHLCVBuffer(maxlen=10_000)`. -/
def init (maxlen : ℕ := 10000) : OHLCVBuffer := ⟨[], maxlen⟩

/-- `OHLCVBuffer.add_or_update_candle(timestamp, price, volume)`.  Returns
the updated buffer and `is_new` (`True` iff the minute key was absent).  The
`setdefault` + in-place mutation of the source nets out to: start from the
existing candle, or from `{o=h=l=c=price, v=0}` if absent; then
`high = max(high, price)`, `low = min(low, price)`, `volume += volume`,
`close = price`; finally enforce `maxlen` by evicting oldest keys. -/
def addOrUpdateCandle (buf : OHLCVBuffer) (timestamp : DateTime)
    (price : ℚ) (volume : ℤ) : OHLCVBuffer × Bool :=
  let isNew := (findVal timestamp buf.data).isNone
  let candle := (findVal timestamp buf.data).getD
    { open_ := price, high := price, low := price, close := price, volume := 0 }
  let candle' : Candle :=
    { open_ := candle.open_
      high := max candle.high price
      low := min candle.low price
      close := price
      volume := candle.volume + volume }
  (⟨enforceMaxlen buf.maxlen (insertSorted timestamp candle' buf.data), buf.maxlen⟩, isNew)

/-- `OHLCVBuffer.set_candle(timestamp, candle_data)`: unconditional replace,
then the same eviction rule. -/
def setCandle (buf : OHLCVBuffer) (timestamp : DateTime) (c : Candle) : OHLCVBuffer :=
  ⟨enforceMaxlen buf.maxlen (insertSorted timestamp c buf.data), buf.maxlen⟩

/-- `OHLCVBuffer.bulk_update(candles)`: drop entries whose key is already
present, insert the rest, then enforce `maxlen`. -/
def bulkUpdate (buf : OHLCVBuffer) (candles : Entries) : OHLCVBuffer :=
  let newCandles := candles.filter (fun e => (findVal e.1 buf.data).isNone)
  ⟨enforceMaxlen buf.maxlen
      (newCandles.foldl (fun l e => insertSorted e.1 e.2 l) buf.data),
    buf.maxlen⟩

/-- `OHLCVBuffer.get_latest(n)` = `dict(self.data.items()[-n:])` (empty dict
when the buffer is empty).  Note Python's `[-0:]` returns the whole list, so
`n = 0` yields everything; the source only calls this with `n ∈ {1, 2}`. -/
def getLatest (buf : OHLCVBuffer) (n : ℕ := 1) : Entries :=
  if buf.data = [] then []
  else if n = 0 then buf.data
  else buf.data.drop (buf.data.length - n)

/-- `OHLCVBuffer.get_all()`. -/
def getAll (buf : OHLCVBuffer) : Entries := buf.data

/-- `len(self)` -/
def size (buf : OHLCVBuffer) : ℕ := buf.data.length

end OHLCVBuffer

/-! ### Structural lemmas about the sorted entry list -/

/-- Keys are strictly ascending: the `SortedDict` well-formedness invariant. -/
def SortedKeys (l : Entries) : Prop :=
  List.Pairwise (fun a b => DateTime.klt a.1 b.1) l

theorem findVal_insertSorted (k k' : DateTime) (c : Candle) (l : Entries) :
    findVal k' (insertSorted k c l) = if k' = k then some c else findVal k' l := by
  induction l with
  | nil => simp [insertSorted, findVal]
  | cons hd tl ih =>
    obtain ⟨k₀, v₀⟩ := hd
    by_cases hlt : DateTime.klt k k₀
    · simp [insertSorted, hlt, findVal]
    · by_cases heq : k = k₀
      · subst heq
        by_cases h' : k' = k <;> simp [insertSorted, hlt, findVal, h']
      · by_cases h' : k' = k₀
        · subst h'
          have : k' ≠ k := fun h => heq h.symm
          simp [insertSorted, hlt, heq, findVal, this]
        · simp [insertSorted, hlt, heq, findVal, h', ih]

theorem mem_insertSorted {x : DateTime × Candle} {k : DateTime} {c : Candle}
    {l : Entries} (hx : x ∈ insertSorted k c l) : x = (k, c) ∨ x ∈ l := by
  induction l with
  | nil => simpa [insertSorted] using hx
  | cons hd tl ih =>
    obtain ⟨k₀, v₀⟩ := hd
    by_cases hlt : DateTime.klt k k₀
    · rw [insertSorted, if_pos hlt] at hx
      rcases List.mem_cons.mp hx with h | h
      · exact Or.inl h
      · exact Or.inr h
    · by_cases heq : k = k₀
      · subst heq
        rw [insertSorted, if_neg hlt, if_pos rfl] at hx
        rcases List.mem_cons.mp hx with h | h
        · exact Or.inl h
        · exact Or.inr (List.mem_cons_of_mem _ h)
      · rw [insertSorted, if_neg hlt, if_neg heq] at hx
        rcases List.mem_cons.mp hx with h | h
        · exact Or.inr (by simp [h])
        · rcases ih h with h' | h'
          · exact Or.inl h'
          · exact Or.inr (List.mem_cons_of_mem _ h')

theorem sortedKeys_insertSorted {l : Entries} (hs : SortedKeys l)
    (k : DateTime) (c : Candle) : SortedKeys (insertSorted k c l) := by
  induction l with
  | nil => simp [insertSorted, SortedKeys]
  | cons hd tl ih =>
    obtain ⟨k₀, v₀⟩ := hd
    rw [SortedKeys, List.pairwise_cons] at hs
    obtain ⟨hhd, htl⟩ := hs
    by_cases hlt : DateTime.klt k k₀
    · rw [SortedKeys, insertSorted, if_pos hlt]
      refine List.Pairwise.cons ?_ (List.Pairwise.cons hhd htl)
      intro x hx
      rcases List.mem_cons.mp hx with h | h
      · simpa [h] using hlt
      · exact DateTime.klt_trans hlt (hhd x h)
    · by_cases heq : k = k₀
      · subst heq
        rw [SortedKeys, insertSorted, if_neg hlt, if_pos rfl]
        exact List.Pairwise.cons hhd htl
      · rw [SortedKeys, insertSorted, if_neg hlt, if_neg heq]
        refine List.Pairwise.cons ?_ (ih htl)
        intro x hx
        rcases mem_insertSorted hx with h | h
        · have : DateTime.klt k₀ k := by
            rcases DateTime.klt_trichotomy k k₀ with h' | h' | h'
            · exact absurd h' hlt
            · exact absurd h' heq
            · exact h'
          simpa [h] using this
        · exact hhd x h

theorem findVal_eq_none_iff (k : DateTime) (l : Entries) :
    findVal k l = none ↔ k ∉ l.map Prod.fst := by
  induction l with
  | nil => simp [findVal]
  | cons hd tl ih =>
    obtain ⟨k₀, v₀⟩ := hd
    by_cases h : k = k₀
    · subst h; simp [findVal]
    · simp [findVal, h, ih]

theorem findVal_some_mem {k : DateTime} {c : Candle} {l : Entries}
    (h : findVal k l = some c) : (k, c) ∈ l := by
  induction l with
  | nil => simp [findVal] at h
  | cons hd tl ih =>
    obtain ⟨k₀, v₀⟩ := hd
    by_cases heq : k = k₀
    · subst heq
      rw [findVal, if_pos rfl] at h
      injection h with h
      subst h
      exact List.mem_cons_self _ _
    · rw [findVal, if_neg heq] at h
      exact List.mem_cons_of_mem _ (ih h)

theorem length_insertSorted_of_none {k : DateTime} {c : Candle} {l : Entries}
    (h : findVal k l = none) :
    (insertSorted k c l).length = l.length + 1 := by
  induction l with
  | nil => simp [insertSorted]
  | cons hd tl ih =>
    obtain ⟨k₀, v₀⟩ := hd
    by_cases heq : k = k₀
    · subst heq; simp [findVal] at h
    · simp only [findVal, if_neg heq] at h
      by_cases hlt : DateTime.klt k k₀
      · simp [insertSorted, hlt]
      · simp [insertSorted, hlt, heq, ih h]

theorem length_insertSorted_of_some {k : DateTime} {c c₀ : Candle} {l : Entries}
    (h : findVal k l = some c₀) (hs : SortedKeys l) :
    (insertSorted k c l).length = l.length := by
  induction l with
  | nil => simp [findVal] at h
  | cons hd tl ih =>
    obtain ⟨k₀, v₀⟩ := hd
    rw [SortedKeys, List.pairwise_cons] at hs
    obtain ⟨hhd, htl⟩ := hs
    by_cases heq : k = k₀
    · subst heq; simp [insertSorted, DateTime.klt_irrefl]
    · simp only [findVal, if_neg heq] at h
      have hmem : (k, c₀) ∈ tl := findVal_some_mem h
      have hk₀k : DateTime.klt k₀ k := hhd _ hmem
      have hlt : ¬ DateTime.klt k k₀ := fun h' =>
        DateTime.klt_irrefl k (DateTime.klt_trans h' hk₀k)
      simp [insertSorted, hlt, heq, ih h htl]

theorem enforceMaxlen_of_le {m : ℕ} {l : Entries} (h : l.length ≤ m) :
    enforceMaxlen m l = l := by
  cases l with
  | nil => rfl
  | cons x t => rw [enforceMaxlen, if_pos h]

theorem enforceMaxlen_sublist (m : ℕ) (l : Entries) :
    (enforceMaxlen m l).Sublist l := by
  induction l with
  | nil => simp [enforceMaxlen]
  | cons x t ih =>
    by_cases h : (x :: t).length ≤ m
    · rw [enforceMaxlen, if_pos h]
    · rw [enforceMaxlen, if_neg h]
      exact ih.cons x

theorem sortedKeys_enforceMaxlen {m : ℕ} {l : Entries} (hs : SortedKeys l) :
    SortedKeys (enforceMaxlen m l) :=
  List.Pairwise.sublist (enforceMaxlen_sublist m l) hs

theorem sortedKeys_nodup_keys {l : Entries} (hs : SortedKeys l) :
    (l.map Prod.fst).Nodup := by
  rw [List.Nodup, List.pairwise_map]
  exact hs.imp (fun h => DateTime.klt_ne h)

/-! ## StockHandler — the per-symbol aggregator (stockHandler.py)

`db_manager` and `on_update_callback` are external collaborators; we record
only whether they are present, and return the store upserts and callback
emissions a call performs as explicit lists. -/

/-- One `db_manager.upsert_candle(symbol, timestamp, candle)` call. -/
structure DbUpsert where
  symbol : String
  timestamp : DateTime
  candle : Candle
deriving DecidableEq, Repr

/-- One `on_update_callback(symbol, candles, is_initial)` call. -/
structure UpdateEmit where
  symbol : String
  candles : Entries
  isInitial : Bool
deriving DecidableEq, Repr

structure StockHandler where
  symbol : String
  ohlcv : OHLCVBuffer
  hasDbManager : Bool
  hasCallback : Bool
deriving DecidableEq, Repr

namespace StockHandler

/-- A freshly constructed `StockHandler(symbol, buffer_maxlen=...)` (with no
database rehydration, i.e. `db_manager`/callback presence as given). -/
def init (symbol : String) (hasDb hasCb : Bool) (bufferMaxlen : ℕ := 10000) :
    StockHandler :=
  { symbol := symbol, ohlcv := OHLCVBuffer.init bufferMaxlen,
    hasDbManager := hasDb, hasCallback := hasCb }

/-- `StockHandler._update_candle_data(minute_timestamp, is_new_candle,
save_immediately)`: the shared database/callback tail of `process_trade` and
`process_candle`.  The `save_immediately` branch indexes
`self._ohlcv[minute_timestamp]`, whose key the caller has just written, so
the `none` fallback is unreachable. -/
def updateCandleData (h : StockHandler) (minuteTimestamp : DateTime)
    (isNewCandle : Bool) (saveImmediately : Bool) :
    List DbUpsert × List UpdateEmit :=
  let writes :=
    if h.hasDbManager then
      if saveImmediately then
        match findVal minuteTimestamp h.ohlcv.data with
        | some c => [⟨h.symbol, minuteTimestamp, c⟩]
        | none => []
      else if isNewCandle ∧ 1 < h.ohlcv.size then
        match h.ohlcv.getLatest 2 with
        | prev :: _ :: _ => [⟨h.symbol, prev.1, prev.2⟩]
        | _ => []
      else []
    else []
  let emits :=
    if h.hasCallback then [⟨h.symbol, h.ohlcv.getLatest 2, false⟩] else []
  (writes, emits)

/-- `StockHandler.process_trade(price, volume, timestamp, conditions)`.

The validation is the source's
`any(item in (None, 0) for item in [price, volume]) or not timestamp`
followed by a `try`/`except` around timestamp parsing: a `None` price or
volume cannot be represented here, a zero price or volume is `= 0`, and a
missing, empty or unparseable timestamp string is `timestamp = none` (the
parse oracle).  `conditions` is accepted and ignored by the source. -/
def processTrade (h : StockHandler) (price : ℚ) (volume : ℤ)
    (timestamp : Option DateTime) :
    StockHandler × List DbUpsert × List UpdateEmit :=
  if price = 0 ∨ volume = 0 then (h, [], [])
  else
    match timestamp with
    | none => (h, [], [])
    | some dt =>
      let minuteTimestamp := dt.minuteAlign
      let res := h.ohlcv.addOrUpdateCandle minuteTimestamp price volume
      let h' := { h with ohlcv := res.1 }
      let tail := updateCandleData h' minuteTimestamp res.2 false
      (h', tail.1, tail.2)

/-- `StockHandler.process_candle(candle_data)`: minute-align the bar's
timestamp, `set_candle`, then save immediately.  An unparseable timestamp
(`none`) hits the `except` branch: log and change nothing. -/
def processCandle (h : StockHandler) (c : Candle) (timestamp : Option DateTime) :
    StockHandler × List DbUpsert × List UpdateEmit :=
  match timestamp with
  | none => (h, [], [])
  | some dt =>
    let minuteTimestamp := dt.minuteAlign
    let h' := { h with ohlcv := h.ohlcv.setCandle minuteTimestamp c }
    let tail := updateCandleData h' minuteTimestamp false true
    (h', tail.1, tail.2)

/-- `StockHandler.load_historical_data(historical_bars)`.  Returns the new
handler, the entries passed to `db_manager.bulk_upsert_candles`, and the
callback emissions.  Note the source computes
`new_bars = {ts: bar for ts, bar in historical_bars.items() if ts in self._ohlcv}`
*after* the bulk update: the filter keeps every given bar whose key is in
the buffer afterwards, not only the newly inserted ones (its comment says
"Get only the new bars that were added"). -/
def loadHistoricalData (h : StockHandler) (historicalBars : Entries) :
    StockHandler × List (DateTime × Candle) × List UpdateEmit :=
  let initialCount := h.ohlcv.size
  let buf' := h.ohlcv.bulkUpdate historicalBars
  let newCount := buf'.size - initialCount
  let h' := { h with ohlcv := buf' }
  let writes :=
    if h.hasDbManager ∧ 0 < newCount then
      historicalBars.filter (fun b => (findVal b.1 buf'.data).isSome)
    else []
  let emits :=
    if h.hasCallback then [⟨h.symbol, buf'.getAll, true⟩] else []
  (h', writes, emits)

end StockHandler

/-! ## Trades and trade runs (for the candle-invariant claims) -/

/-- A trade event whose timestamp parsed successfully. -/
structure Trade where
  price : ℚ
  volume : ℤ
  timestamp : DateTime
deriving DecidableEq, Repr

namespace Trade

/-- The buffer key this trade falls under: its minute-aligned timestamp. -/
def key (t : Trade) : DateTime := t.timestamp.minuteAlign

/-- A valid trade in the sense of the spec: positive price, positive size. -/
def Valid (t : Trade) : Prop := 0 < t.price ∧ 0 < t.volume

instance : DecidablePred Valid := fun t => by
  unfold Valid; infer_instance

end Trade

/-- Feed a sequence of trades through `process_trade`, keeping the handler
state (the store writes and emissions are irrelevant to the buffer). -/
def runTrades (h : StockHandler) (trades : List Trade) : StockHandler :=
  trades.foldl
    (fun h t => (h.processTrade t.price t.volume (some t.timestamp)).1) h

/-- The spec's candle invariants relative to the trades `g` that fell in the
candle's minute, in arrival order: `o` is the first trade's price, `c` the
last trade's price, `v` the sum of the sizes, and the OHLC ordering
inequalities hold. -/
def CandleSpec (g : List Trade) (c : Candle) : Prop :=
  (∃ t₀, g.head? = some t₀ ∧ c.open_ = t₀.price) ∧
  (∃ tn, g.getLast? = some tn ∧ c.close = tn.price) ∧
  c.volume = (g.map Trade.volume).sum ∧
  c.low ≤ c.open_ ∧ c.open_ ≤ c.high ∧
  c.low ≤ c.close ∧ c.close ≤ c.high ∧ c.low ≤ c.high

/-- The run invariant for `process_trade` sequences.  Besides the candle
property for every present key, it records the eviction-safety facts that
make the candle property self-sustaining: every minute key of a processed
trade that is *not* in the buffer was evicted, which can only happen when
the buffer is at capacity, and such a key is strictly below every key still
in the buffer (so re-inserting it immediately evicts it again). -/
def TradesInv (done : List Trade) (buf : OHLCVBuffer) : Prop :=
  SortedKeys buf.data ∧
  buf.data.length ≤ buf.maxlen ∧
  (∀ k c, findVal k buf.data = some c →
    k ∈ done.map Trade.key ∧
      CandleSpec (done.filter (fun t => t.key = k)) c) ∧
  (∀ k, k ∈ done.map Trade.key → findVal k buf.data = none →
    buf.data.length = buf.maxlen ∧
      ∀ k' ∈ buf.data.map Prod.fst, DateTime.klt k k')

theorem findVal_isSome_iff_mem (k : DateTime) (l : Entries) :
    (findVal k l).isSome ↔ k ∈ l.map Prod.fst := by
  rcases h : findVal k l with _ | c
  · simpa using (findVal_eq_none_iff k l).mp h
  · simp only [Option.isSome_some, true_iff]
    exact List.mem_map.mpr ⟨(k, c), findVal_some_mem h, rfl⟩

theorem findVal_eq_none_of_not_mem {k : DateTime} {l : Entries}
    (h : k ∉ l.map Prod.fst) : findVal k l = none := by
  rcases hf : findVal k l with _ | c
  · rfl
  · exact absurd ((findVal_isSome_iff_mem k l).mp (by simp [hf])) h

theorem enforceMaxlen_tail {m : ℕ} {l : Entries} (h : l.length = m + 1) :
    enforceMaxlen m l = l.tail := by
  cases l with
  | nil => simp at h
  | cons x t =>
    have hlen : ¬ (x :: t).length ≤ m := by omega
    rw [enforceMaxlen, if_neg hlen]
    have : t.length ≤ m := by
      simp only [List.length_cons] at h
      omega
    simpa using enforceMaxlen_of_le this

theorem candleSpec_singleton (t : Trade) :
    CandleSpec [t] ⟨t.price, t.price, t.price, t.price, t.volume⟩ := by
  refine ⟨⟨t, rfl, rfl⟩, ⟨t, rfl, rfl⟩, by simp, le_refl _, le_refl _,
    le_refl _, le_refl _, le_refl _⟩

theorem candleSpec_snoc {g : List Trade} {c : Candle} (hs : CandleSpec g c)
    (t : Trade) :
    CandleSpec (g ++ [t])
      ⟨c.open_, max c.high t.price, min c.low t.price, t.price,
        c.volume + t.volume⟩ := by
  obtain ⟨⟨t₀, hh, ho⟩, ⟨tn, hl, hc⟩, hv, h1, h2, h3, h4, h5⟩ := hs
  cases g with
  | nil => simp at hh
  | cons a g' =>
    simp only [List.head?_cons, Option.some.injEq] at hh
    subst hh
    refine ⟨⟨a, by simp, ho⟩, ⟨t, List.getLast?_concat _, rfl⟩, ?_, ?_, ?_, ?_,
      ?_, ?_⟩
    · simp [hv, add_assoc]
    · exact le_trans (min_le_left _ _) h1
    · exact le_trans h2 (le_max_left _ _)
    · exact min_le_right _ _
    · exact le_max_right _ _
    · exact le_trans (min_le_left _ _) (le_trans h5 (le_max_left _ _))

theorem mem_keys_insertSorted {x k : DateTime} {c : Candle} {l : Entries}
    (h : x ∈ (insertSorted k c l).map Prod.fst) :
    x = k ∨ x ∈ l.map Prod.fst := by
  obtain ⟨e, he, rfl⟩ := List.mem_map.mp h
  rcases mem_insertSorted he with h' | h'
  · left; rw [h']
  · right; exact List.mem_map_of_mem _ h'

theorem filter_key_append_same {done : List Trade} {t : Trade} {k : DateTime}
    (hk : t.key = k) :
    (done ++ [t]).filter (fun t' => t'.key = k) =
      done.filter (fun t' => t'.key = k) ++ [t] := by
  simp [List.filter_append, hk]

theorem filter_key_append_other {done : List Trade} {t : Trade} {k : DateTime}
    (hk : t.key ≠ k) :
    (done ++ [t]).filter (fun t' => t'.key = k) =
      done.filter (fun t' => t'.key = k) := by
  simp [List.filter_append, hk]

theorem filter_key_eq_nil {done : List Trade} {k : DateTime}
    (hk : k ∉ done.map Trade.key) :
    done.filter (fun t' => t'.key = k) = [] := by
  rw [List.filter_eq_nil_iff]
  intro t' ht'
  simp only [decide_eq_true_eq]
  intro h
  exact hk (List.mem_map.mpr ⟨t', ht', h⟩)

/-- One `process_trade` step preserves the run invariant. -/
theorem tradesInv_step {done : List Trade} {buf : OHLCVBuffer} {t : Trade}
    (inv : TradesInv done buf) :
    TradesInv (done ++ [t]) (buf.addOrUpdateCandle t.key t.price t.volume).1 := by
  obtain ⟨hsort, hsize, hpresent, habsent⟩ := inv
  have hmemk : t.key ∈ (done ++ [t]).map Trade.key := by
    simp [Trade.key]
  have hmem_of : ∀ k'', k'' ∈ (done ++ [t]).map Trade.key → k'' ≠ t.key →
      k'' ∈ done.map Trade.key := by
    intro k'' hk'' hkk
    rcases List.mem_map.mp hk'' with ⟨t', ht', rfl⟩
    rcases List.mem_append.mp ht' with h | h
    · exact List.mem_map_of_mem _ h
    · simp only [List.mem_singleton] at h
      subst h
      exact absurd rfl hkk
  rcases hfound : findVal t.key buf.data with _ | c₀
  -- the minute key is absent from the buffer
  · set cNew : Candle :=
      ⟨t.price, max t.price t.price, min t.price t.price, t.price,
        0 + t.volume⟩ with hcNew
    have hdata : ((buf.addOrUpdateCandle t.key t.price t.volume).1).data
        = enforceMaxlen buf.maxlen (insertSorted t.key cNew buf.data) := by
      simp only [OHLCVBuffer.addOrUpdateCandle, hfound, Option.getD_none, hcNew]
    have hmax : ((buf.addOrUpdateCandle t.key t.price t.volume).1).maxlen
        = buf.maxlen := rfl
    have hspec1 : CandleSpec [t] cNew := by
      have hc : cNew = ⟨t.price, t.price, t.price, t.price, t.volume⟩ := by
        simp [hcNew]
      rw [hc]
      exact candleSpec_singleton t
    have hlen : (insertSorted t.key cNew buf.data).length
        = buf.data.length + 1 := length_insertSorted_of_none hfound
    rcases lt_or_eq_of_le hsize with hcap | hcap
    -- below capacity: no eviction; the key must be fresh
    · have hid : enforceMaxlen buf.maxlen (insertSorted t.key cNew buf.data)
          = insertSorted t.key cNew buf.data :=
        enforceMaxlen_of_le (by omega)
      have hfresh : t.key ∉ done.map Trade.key := by
        intro hmem
        have := (habsent t.key hmem hfound).1
        omega
      refine ⟨?_, ?_, ?_, ?_⟩
      · rw [hdata, hid]
        exact sortedKeys_insertSorted hsort _ _
      · rw [hdata, hmax, hid, hlen]
        omega
      · intro k' c' hfind
        rw [hdata, hid, findVal_insertSorted] at hfind
        by_cases hk' : k' = t.key
        · subst hk'
          rw [if_pos rfl] at hfind
          injection hfind with hfind
          subst hfind
          refine ⟨hmemk, ?_⟩
          rw [filter_key_append_same rfl, filter_key_eq_nil hfresh]
          simpa using hspec1
        · rw [if_neg hk'] at hfind
          obtain ⟨hmem, hcs⟩ := hpresent k' c' hfind
          refine ⟨by simp [hmem], ?_⟩
          rwa [filter_key_append_other (fun h => hk' h.symm)]
      · intro k'' hk'' hnone
        rw [hdata, hid, findVal_insertSorted] at hnone
        by_cases hkk : k'' = t.key
        · rw [if_pos hkk] at hnone
          exact absurd hnone (by simp)
        · rw [if_neg hkk] at hnone
          have := (habsent k'' (hmem_of k'' hk'' hkk) hnone).1
          omega
    -- at capacity: the oldest key is evicted together with the insert
    · have htail : enforceMaxlen buf.maxlen (insertSorted t.key cNew buf.data)
          = (insertSorted t.key cNew buf.data).tail :=
        enforceMaxlen_tail (by omega)
      cases hl : buf.data with
      | nil =>
        -- maxlen = 0: the fresh candle is evicted immediately
        have hm0 : buf.maxlen = 0 := by
          rw [hl] at hcap
          simpa using hcap.symm
        have hres : ((buf.addOrUpdateCandle t.key t.price t.volume).1).data
            = [] := by
          rw [hdata, hl, hm0]
          simp [insertSorted, enforceMaxlen]
        refine ⟨?_, ?_, ?_, ?_⟩
        · rw [hres]; exact List.Pairwise.nil
        · simp [hres]
        · intro k' c' hfind
          rw [hres] at hfind
          simp [findVal] at hfind
        · intro k'' _ _
          constructor
          · simp [hres, hmax, hm0]
          · intro k' hk'
            rw [hres] at hk'
            simp at hk'
      | cons hd rest =>
        obtain ⟨k₀, v₀⟩ := hd
        rw [hl] at hsort
        rw [SortedKeys, List.pairwise_cons] at hsort
        obtain ⟨hhd, htlsort⟩ := hsort
        by_cases hklt : DateTime.klt t.key k₀
        -- the new key is below the current minimum: it is evicted at once
        · have hres : ((buf.addOrUpdateCandle t.key t.price t.volume).1).data
              = buf.data := by
            rw [hdata, htail, hl, insertSorted, if_pos hklt]
            rfl
          have hbelow : ∀ k' ∈ buf.data.map Prod.fst, DateTime.klt t.key k' := by
            intro k' hk'
            rw [hl] at hk'
            rcases List.mem_map.mp hk' with ⟨e, he, rfl⟩
            rcases List.mem_cons.mp he with h | h
            · rw [h]
              exact hklt
            · exact DateTime.klt_trans hklt (hhd e h)
          refine ⟨?_, ?_, ?_, ?_⟩
          · rw [hres, hl]
            exact List.Pairwise.cons hhd htlsort
          · rw [hres, hmax]
            exact hsize
          · intro k' c' hfind
            rw [hres] at hfind
            have hk' : k' ≠ t.key := by
              rintro rfl
              rw [hfound] at hfind
              exact Option.noConfusion hfind
            obtain ⟨hmem, hcs⟩ := hpresent k' c' hfind
            refine ⟨by simp [hmem], ?_⟩
            rwa [filter_key_append_other (fun h => hk' h.symm)]
          · intro k'' hk'' hnone
            rw [hres] at hnone
            by_cases hkk : k'' = t.key
            · subst hkk
              exact ⟨by rw [hres, hmax]; omega, by rw [hres]; exact hbelow⟩
            · obtain ⟨h1, h2⟩ := habsent k'' (hmem_of k'' hk'' hkk) hnone
              exact ⟨by rw [hres, hmax]; omega,
                by rw [hres]; exact h2⟩
        -- the new key is above the current minimum: the minimum is evicted
        · have hne : t.key ≠ k₀ := by
            rintro rfl
            rw [hl, findVal, if_pos rfl] at hfound
            exact Option.noConfusion hfound
          have hk₀lt : DateTime.klt k₀ t.key := by
            rcases DateTime.klt_trichotomy t.key k₀ with h | h | h
            · exact absurd h hklt
            · exact absurd h hne
            · exact h
          have hfoundrest : findVal t.key rest = none := by
            rw [hl, findVal, if_neg hne] at hfound
            exact hfound
          have hres : ((buf.addOrUpdateCandle t.key t.price t.volume).1).data
              = insertSorted t.key cNew rest := by
            rw [hdata, htail, hl, insertSorted, if_neg hklt, if_neg hne]
            rfl
          have hreslen : (insertSorted t.key cNew rest).length
              = rest.length + 1 := length_insertSorted_of_none hfoundrest
          have hlrest : buf.data.length = rest.length + 1 := by
            rw [hl]
            rfl
          have hfreshk : t.key ∉ done.map Trade.key := by
            intro hmem
            have := (habsent t.key hmem hfound).2 k₀ (by simp [hl])
            exact hklt this
          have hk₀notinrest : k₀ ∉ rest.map Prod.fst := by
            intro hmem
            rcases List.mem_map.mp hmem with ⟨e, he, rfl⟩
            exact DateTime.klt_irrefl _ (hhd e he)
          refine ⟨?_, ?_, ?_, ?_⟩
          · rw [hres]
            exact sortedKeys_insertSorted htlsort _ _
          · rw [hres, hmax, hreslen]
            omega
          · intro k' c' hfind
            rw [hres, findVal_insertSorted] at hfind
            by_cases hk' : k' = t.key
            · subst hk'
              rw [if_pos rfl] at hfind
              injection hfind with hfind
              subst hfind
              refine ⟨hmemk, ?_⟩
              rw [filter_key_append_same rfl, filter_key_eq_nil hfreshk]
              simpa using hspec1
            · rw [if_neg hk'] at hfind
              have hk'' : k' ≠ k₀ := by
                rintro rfl
                exact hk₀notinrest
                  ((findVal_isSome_iff_mem _ _).mp (by simp [hfind]))
              have hfind' : findVal k' buf.data = some c' := by
                rw [hl, findVal, if_neg hk'']
                exact hfind
              obtain ⟨hmem, hcs⟩ := hpresent k' c' hfind'
              refine ⟨by simp [hmem], ?_⟩
              rwa [filter_key_append_other (fun h => hk' h.symm)]
          · intro k'' hk'' hnone
            rw [hres, findVal_insertSorted] at hnone
            by_cases hkk : k'' = t.key
            · rw [if_pos hkk] at hnone
              exact absurd hnone (by simp)
            · rw [if_neg hkk] at hnone
              have hsize' :
                  ((buf.addOrUpdateCandle t.key t.price t.volume).1).data.length
                  = ((buf.addOrUpdateCandle t.key t.price t.volume).1).maxlen := by
                rw [hres, hmax, hreslen]
                omega
              have hresmem : ∀ k' ∈ ((buf.addOrUpdateCandle t.key t.price
                  t.volume).1).data.map Prod.fst,
                  k' = t.key ∨ k' ∈ rest.map Prod.fst := by
                intro k' hk'
                rw [hres] at hk'
                exact mem_keys_insertSorted hk'
              by_cases hkk₀ : k'' = k₀
              -- the evicted old minimum
              · subst hkk₀
                refine ⟨hsize', ?_⟩
                intro k' hk'
                rcases hresmem k' hk' with h | h
                · rw [h]
                  exact hk₀lt
                · rcases List.mem_map.mp h with ⟨e, he, rfl⟩
                  exact hhd e he
              -- a key evicted in an earlier step
              · have hnone' : findVal k'' buf.data = none := by
                  rw [hl, findVal, if_neg hkk₀]
                  exact hnone
                obtain ⟨h1, h2⟩ := habsent k'' (hmem_of k'' hk'' hkk) hnone'
                refine ⟨hsize', ?_⟩
                intro k' hk'
                rcases hresmem k' hk' with h | h
                · rw [h]
                  exact DateTime.klt_trans (h2 k₀ (by simp [hl])) hk₀lt
                · exact h2 k' (by
                    rcases List.mem_map.mp h with ⟨e, he, rfl⟩
                    exact List.mem_map_of_mem _ (by simp [hl, he]))
  -- the minute key is already present: fold the trade into its candle
  · set cNew : Candle :=
      ⟨c₀.open_, max c₀.high t.price, min c₀.low t.price, t.price,
        c₀.volume + t.volume⟩ with hcNew
    have hdata : ((buf.addOrUpdateCandle t.key t.price t.volume).1).data
        = enforceMaxlen buf.maxlen (insertSorted t.key cNew buf.data) := by
      simp only [OHLCVBuffer.addOrUpdateCandle, hfound, Option.getD_some, hcNew]
    have hmax : ((buf.addOrUpdateCandle t.key t.price t.volume).1).maxlen
        = buf.maxlen := rfl
    have hlen : (insertSorted t.key cNew buf.data).length = buf.data.length :=
      length_insertSorted_of_some hfound hsort
    have hid : enforceMaxlen buf.maxlen (insertSorted t.key cNew buf.data)
        = insertSorted t.key cNew buf.data :=
      enforceMaxlen_of_le (by omega)
    refine ⟨?_, ?_, ?_, ?_⟩
    · rw [hdata, hid]
      exact sortedKeys_insertSorted hsort _ _
    · rw [hdata, hmax, hid, hlen]
      exact hsize
    · intro k' c' hfind
      rw [hdata, hid, findVal_insertSorted] at hfind
      by_cases hk' : k' = t.key
      · subst hk'
        rw [if_pos rfl] at hfind
        injection hfind with hfind
        subst hfind
        obtain ⟨hmem, hcs⟩ := hpresent _ c₀ hfound
        refine ⟨hmemk, ?_⟩
        rw [filter_key_append_same rfl]
        exact candleSpec_snoc hcs t
      · rw [if_neg hk'] at hfind
        obtain ⟨hmem, hcs⟩ := hpresent k' c' hfind
        refine ⟨by simp [hmem], ?_⟩
        rwa [filter_key_append_other (fun h => hk' h.symm)]
    · intro k'' hk'' hnone
      rw [hdata, hid, findVal_insertSorted] at hnone
      by_cases hkk : k'' = t.key
      · rw [if_pos hkk] at hnone
        exact absurd hnone (by simp)
      · rw [if_neg hkk] at hnone
        obtain ⟨h1, h2⟩ := habsent k'' (hmem_of k'' hk'' hkk) hnone
        refine ⟨?_, ?_⟩
        · rw [hdata, hmax, hid, hlen]
          exact h1
        · intro k' hk'
          rw [hdata, hid] at hk'
          rcases mem_keys_insertSorted hk' with h | h
          · rw [h]
            have hkmem : t.key ∈ buf.data.map Prod.fst :=
              (findVal_isSome_iff_mem _ _).mp (by simp [hfound])
            exact h2 _ hkmem
          · exact h2 k' h

theorem processTrade_fst (h : StockHandler) {t : Trade} (hv : t.Valid) :
    (h.processTrade t.price t.volume (some t.timestamp)).1 =
      { h with ohlcv := (h.ohlcv.addOrUpdateCandle t.key t.price t.volume).1 } := by
  have h0 : ¬ (t.price = 0 ∨ t.volume = 0) := by
    push_neg
    exact ⟨ne_of_gt hv.1, ne_of_gt hv.2⟩
  simp [StockHandler.processTrade, h0, Trade.key]

theorem tradesInv_runTrades : ∀ (trs : List Trade) (done : List Trade)
    (h : StockHandler), TradesInv done h.ohlcv → (∀ t ∈ trs, t.Valid) →
    TradesInv (done ++ trs) (runTrades h trs).ohlcv := by
  intro trs
  induction trs with
  | nil =>
    intro done h hinv _
    simpa [runTrades] using hinv
  | cons t rest ih =>
    intro done h hinv hval
    have hv : t.Valid := hval t (by simp)
    have hstep : runTrades h (t :: rest) =
        runTrades ((h.processTrade t.price t.volume (some t.timestamp)).1) rest :=
      rfl
    rw [hstep, processTrade_fst h hv]
    have hinv' : TradesInv (done ++ [t])
        ({ h with ohlcv := (h.ohlcv.addOrUpdateCandle t.key t.price
            t.volume).1 } : StockHandler).ohlcv :=
      tradesInv_step hinv
    have := ih (done ++ [t]) _ hinv' (fun t' ht' => hval t' (by simp [ht']))
    simpa using this

/-- C1: for every sequence of valid trades fed to `process_trade` on a fresh
per-symbol handler, the candle stored at each minute key aggregates exactly
the trades that fell in that minute: `low ≤ open, close ≤ high`,
`low ≤ high`, `volume` is the sum of the sizes, `open` is the first such
trade's price and `close` the last one's.  This holds even across capacity
eviction: once a minute key has been evicted, re-inserting it immediately
evicts it again (the buffer is full and the key is below the retained
ones), so it never resurfaces with a partial aggregate. -/
theorem process_trade_candle_invariants (symbol : String) (hasDb hasCb : Bool)
    (maxlen : ℕ) (trades : List Trade) (hvalid : ∀ t ∈ trades, t.Valid)
    (k : DateTime) (c : Candle)
    (hfind : findVal k
      (runTrades (StockHandler.init symbol hasDb hasCb maxlen) trades).ohlcv.data
      = some c) :
    CandleSpec (trades.filter (fun t => t.key = k)) c := by
  have hinv0 : TradesInv [] (StockHandler.init symbol hasDb hasCb maxlen).ohlcv := by
    refine ⟨List.Pairwise.nil, by simp [StockHandler.init, OHLCVBuffer.init], ?_, ?_⟩
    · intro k' c' hfind'
      simp [StockHandler.init, OHLCVBuffer.init, findVal] at hfind'
    · intro k' hk'
      simp at hk'
  have hrun := tradesInv_runTrades trades [] _ hinv0 hvalid
  rw [List.nil_append] at hrun
  exact (hrun.2.2.1 k c hfind).2

/-- Spec scenario 1: four trades inside the minute `2022-01-01T00:00`. -/
def tradesEx : List Trade :=
  [⟨150, 100, ⟨2022, 1, 1, 0, 0, 10, 0, some 0⟩⟩,
   ⟨155, 50, ⟨2022, 1, 1, 0, 0, 20, 0, some 0⟩⟩,
   ⟨148, 75, ⟨2022, 1, 1, 0, 0, 30, 0, some 0⟩⟩,
   ⟨152, 25, ⟨2022, 1, 1, 0, 0, 40, 0, some 0⟩⟩]

/-- The minute key `2022-01-01T00:00:00Z`. -/
def keyEx : DateTime := ⟨2022, 1, 1, 0, 0, 0, 0, some 0⟩

/-- The expected aggregate `{o:150, h:155, l:148, c:152, v:250}`. -/
def candleEx : Candle := ⟨150, 155, 148, 152, 250⟩

theorem process_trade_candle_invariants_witness :
    (∀ t ∈ tradesEx, t.Valid) ∧
      findVal keyEx
        (runTrades (StockHandler.init "AAPL" false false 10000)
          tradesEx).ohlcv.data = some candleEx ∧
      CandleSpec (tradesEx.filter (fun t => t.key = keyEx)) candleEx :=
  ⟨by decide, by decide,
    process_trade_candle_invariants "AAPL" false false 10000 tradesEx
      (by decide) keyEx candleEx (by decide)⟩

/-! ## C2 — input validation of `process_trade`

The source guard is `any(item in (None, 0) for item in [price, volume]) or
not timestamp`: it discards a *zero* (or `None`) price or size and a
missing/unparseable timestamp, but a *negative* price or size passes the
guard and is processed. -/

/-- C2 (amended): a call to `process_trade` with `price == 0`, or
`size == 0`, or a missing/unparseable timestamp is discarded silently —
the handler state is unchanged and no store write or update is emitted. -/
theorem process_trade_discards_zero_or_unparseable (h : StockHandler)
    (price : ℚ) (volume : ℤ) (timestamp : Option DateTime)
    (hbad : price = 0 ∨ volume = 0 ∨ timestamp = none) :
    h.processTrade price volume timestamp = (h, [], []) := by
  rcases hbad with h0 | h0 | h0
  · simp [StockHandler.processTrade, h0]
  · simp [StockHandler.processTrade, h0]
  · subst h0
    by_cases hg : price = 0 ∨ volume = 0 <;>
      simp [StockHandler.processTrade, hg]

theorem process_trade_discards_zero_or_unparseable_witness :
    (StockHandler.init "AAPL" true true 10000).processTrade 0 100
      (some ⟨2022, 1, 1, 0, 0, 10, 0, some 0⟩) =
      (StockHandler.init "AAPL" true true 10000, [], []) :=
  process_trade_discards_zero_or_unparseable _ 0 100 _ (Or.inl rfl)

/-- C2 counterexample: a trade with *negative* price `-5` (so `price ≤ 0`)
is **not** discarded: the buffer gains a candle for its minute (with the
nonsensical aggregate `{o:-5, h:-5, l:-5, c:-5, v:10}`), contradicting the
claim that any `price ≤ 0` event leaves everything unchanged. -/
theorem process_trade_negative_price_processed :
    ((StockHandler.init "AAPL" false false 10000).processTrade (-5) 10
        (some ⟨2022, 1, 1, 0, 0, 10, 0, some 0⟩)).1
      ≠ StockHandler.init "AAPL" false false 10000 ∧
    findVal keyEx
      ((StockHandler.init "AAPL" false false 10000).processTrade (-5) 10
        (some ⟨2022, 1, 1, 0, 0, 10, 0, some 0⟩)).1.ohlcv.data
      = some ⟨-5, -5, -5, -5, 10⟩ := by
  constructor
  · decide
  · decide

/-! ## C3 — `bulk_update` and existing keys -/

theorem findVal_foldl_insertSorted {k : DateTime} {c : Candle}
    (lst : Entries) (l : Entries) (hfind : findVal k l = some c)
    (hne : ∀ e ∈ lst, e.1 ≠ k) :
    findVal k (lst.foldl (fun acc e => insertSorted e.1 e.2 acc) l) = some c := by
  induction lst generalizing l with
  | nil => simpa using hfind
  | cons e rest ih =>
    simp only [List.foldl_cons]
    refine ih _ ?_ (fun e' he' => hne e' (List.mem_cons_of_mem _ he'))
    rw [findVal_insertSorted]
    rw [if_neg (fun hk => (hne e (List.mem_cons_self _ _)) hk.symm)]
    exact hfind

theorem sortedKeys_foldl_insertSorted (lst : Entries) {l : Entries}
    (hs : SortedKeys l) :
    SortedKeys (lst.foldl (fun acc e => insertSorted e.1 e.2 acc) l) := by
  induction lst generalizing l with
  | nil => simpa using hs
  | cons e rest ih =>
    simp only [List.foldl_cons]
    exact ih (sortedKeys_insertSorted hs _ _)

theorem length_foldl_insertSorted (lst : Entries) (l : Entries)
    (hnd : (lst.map Prod.fst).Nodup)
    (habs : ∀ e ∈ lst, e.1 ∉ l.map Prod.fst) :
    (lst.foldl (fun acc e => insertSorted e.1 e.2 acc) l).length
      = l.length + lst.length := by
  induction lst generalizing l with
  | nil => simp
  | cons e rest ih =>
    simp only [List.foldl_cons]
    rw [List.map_cons, List.nodup_cons] at hnd
    have h1 : findVal e.1 l = none :=
      findVal_eq_none_of_not_mem (habs e (List.mem_cons_self _ _))
    have hstep := length_insertSorted_of_none (c := e.2) h1
    rw [ih _ hnd.2 ?_, hstep]
    · simp [Nat.add_assoc, Nat.add_comm 1]
    · intro e' he' hmem
      rcases mem_keys_insertSorted hmem with hk | hk
      · exact hnd.1 (hk ▸ List.mem_map_of_mem _ he')
      · exact habs e' (List.mem_cons_of_mem _ he') hk

theorem findVal_eq_of_mem_nodup {k : DateTime} {c c' : Candle} {l : Entries}
    (hfind : findVal k l = some c) (hmem : (k, c') ∈ l)
    (hnd : (l.map Prod.fst).Nodup) : c' = c := by
  induction l with
  | nil => simp at hmem
  | cons hd tl ih =>
    obtain ⟨k₀, v₀⟩ := hd
    rw [List.map_cons, List.nodup_cons] at hnd
    by_cases heq : k = k₀
    · subst heq
      rw [findVal, if_pos rfl] at hfind
      injection hfind with hfind
      rcases List.mem_cons.mp hmem with h | h
      · injection h with h1 h2
        rw [h2, hfind]
      · exact absurd (List.mem_map_of_mem Prod.fst h) hnd.1
    · rw [findVal, if_neg heq] at hfind
      rcases List.mem_cons.mp hmem with h | h
      · injection h with h1 h2
        exact absurd h1 heq
      · exact ih hfind h hnd.2

/-- C3 (amended): `bulk_update` never *overwrites* an existing entry — any
pre-call key still present afterwards holds its exact pre-call candle — and
when the merged size fits within `maxlen` (so no eviction fires), every
pre-call key survives with its candle intact.  (Eviction of oldest entries
can, however, *remove* pre-call keys: see the counterexample.) -/
theorem bulk_update_no_overwrite (buf : OHLCVBuffer) (candles : Entries)
    (hs : SortedKeys buf.data) (hnd : (candles.map Prod.fst).Nodup) :
    (∀ k c c', findVal k buf.data = some c →
      findVal k (buf.bulkUpdate candles).data = some c' → c' = c) ∧
    (buf.data.length +
        (candles.filter (fun e => (findVal e.1 buf.data).isNone)).length
        ≤ buf.maxlen →
      ∀ k c, findVal k buf.data = some c →
        findVal k (buf.bulkUpdate candles).data = some c) := by
  set newCandles := candles.filter (fun e => (findVal e.1 buf.data).isNone)
    with hnew
  have hdata : (buf.bulkUpdate candles).data
      = enforceMaxlen buf.maxlen
          (newCandles.foldl (fun acc e => insertSorted e.1 e.2 acc) buf.data) := by
    simp only [OHLCVBuffer.bulkUpdate, hnew]
  have habs : ∀ e ∈ newCandles, e.1 ∉ buf.data.map Prod.fst := by
    intro e he
    have := List.of_mem_filter he
    simp only [Option.isNone_iff_eq_none, decide_eq_true_eq] at this
    exact (findVal_eq_none_iff _ _).mp this
  have hfold : ∀ k c, findVal k buf.data = some c →
      findVal k (newCandles.foldl (fun acc e => insertSorted e.1 e.2 acc)
        buf.data) = some c := by
    intro k c hfind
    refine findVal_foldl_insertSorted _ _ hfind ?_
    intro e he hk
    exact habs e he (hk ▸ (findVal_isSome_iff_mem k buf.data).mp (by simp [hfind]))
  have hsortfold : SortedKeys (newCandles.foldl
      (fun acc e => insertSorted e.1 e.2 acc) buf.data) :=
    sortedKeys_foldl_insertSorted _ hs
  constructor
  · intro k c c' hfind hfind'
    rw [hdata] at hfind'
    have hmem : (k, c') ∈ newCandles.foldl
        (fun acc e => insertSorted e.1 e.2 acc) buf.data :=
      (enforceMaxlen_sublist _ _).mem (findVal_some_mem hfind')
    exact findVal_eq_of_mem_nodup (hfold k c hfind) hmem
      (sortedKeys_nodup_keys hsortfold)
  · intro hcap k c hfind
    have hndnew : (newCandles.map Prod.fst).Nodup :=
      (List.Sublist.map Prod.fst (List.filter_sublist _)).nodup hnd
    have hlen := length_foldl_insertSorted newCandles buf.data hndnew habs
    rw [hdata, enforceMaxlen_of_le (by rw [hlen]; exact hcap)]
    exact hfold k c hfind

theorem bulk_update_no_overwrite_witness :
    SortedKeys [(⟨2022, 1, 1, 0, 1, 0, 0, some 0⟩, ⟨10, 10, 10, 10, 1⟩)] ∧
    findVal ⟨2022, 1, 1, 0, 1, 0, 0, some 0⟩
      ((⟨[(⟨2022, 1, 1, 0, 1, 0, 0, some 0⟩, ⟨10, 10, 10, 10, 1⟩)], 10000⟩ :
          OHLCVBuffer).bulkUpdate
        [(⟨2022, 1, 1, 0, 2, 0, 0, some 0⟩, ⟨12, 12, 12, 12, 1⟩)]).data
      = some ⟨10, 10, 10, 10, 1⟩ :=
  ⟨by simp [SortedKeys],
    (bulk_update_no_overwrite
        ⟨[(⟨2022, 1, 1, 0, 1, 0, 0, some 0⟩, ⟨10, 10, 10, 10, 1⟩)], 10000⟩
        [(⟨2022, 1, 1, 0, 2, 0, 0, some 0⟩, ⟨12, 12, 12, 12, 1⟩)]
        (by simp [SortedKeys]) (by decide)).2 (by decide) _ _ (by decide)⟩

/-- A minute key helper for counterexamples: minute `n` of
`2022-01-01T00:<n>:00Z`. -/
def minuteKeyEx (n : ℕ) : DateTime := ⟨2022, 1, 1, 0, n, 0, 0, some 0⟩

/-- A flat candle at price `p` with volume `v`, for counterexamples. -/
def flatCandle (p : ℚ) (v : ℤ) : Candle := ⟨p, p, p, p, v⟩

/-- C3 counterexample: with `maxlen = 2` and a buffer holding minutes 1 and
2, `bulk_update` with two fresh later minutes evicts *both pre-existing
entries*: minute 1 was present before the call and is gone afterwards, so
"for every key present before the call, the candle stored under that key
after the call is identical to the one stored before" fails. -/
theorem bulk_update_evicts_existing_counterexample :
    findVal (minuteKeyEx 1)
        (((OHLCVBuffer.init 2).setCandle (minuteKeyEx 1) (flatCandle 10 1)).setCandle
          (minuteKeyEx 2) (flatCandle 11 1)).data = some (flatCandle 10 1) ∧
    findVal (minuteKeyEx 1)
        ((((OHLCVBuffer.init 2).setCandle (minuteKeyEx 1)
            (flatCandle 10 1)).setCandle (minuteKeyEx 2)
            (flatCandle 11 1)).bulkUpdate
          [(minuteKeyEx 3, flatCandle 12 1),
           (minuteKeyEx 4, flatCandle 13 1)]).data = none := by
  constructor
  · decide
  · decide

/-! ## C4 — which entries `load_historical_data` persists

The source filters `historical_bars` by `ts in self._ohlcv` *after* the
`bulk_update`, so every given bar whose key is in the buffer afterwards is
persisted — including bars whose keys were already present before the call
and were therefore *not* inserted (its own comment says "Get only the new
bars that were added").  The claim (and the spec) say only the inserted
subset is persisted. -/

/-- The handler at the failing input: a store-backed handler whose buffer
holds a live candle at minute 2022-01-01T09:30 from a trade `160 x 500`. -/
def handlerC4 : StockHandler :=
  ((StockHandler.init "AAPL" true false 10000).processTrade 160 500
    (some ⟨2022, 1, 1, 9, 30, 45, 0, some 0⟩)).1

/-- The historical bars given to `load_historical_data`: one for the
already-live minute 09:30 and one for the fresh minute 09:31. -/
def barsC4 : Entries :=
  [(⟨2022, 1, 1, 9, 30, 0, 0, some 0⟩, ⟨150, 151, 149, 151, 10000⟩),
   (⟨2022, 1, 1, 9, 31, 0, 0, some 0⟩, ⟨151, 152, 150, 152, 12000⟩)]

/-- C4: evaluation at the failing input.  Only the minute-31 bar is inserted
into the buffer (minute 30 keeps its live candle), yet the store write
contains *both* given bars — the non-inserted minute-30 historical bar is
persisted too, clobbering the live candle's persisted value — instead of
just the inserted subset. -/
theorem load_historical_data_persists_non_inserted :
    findVal ⟨2022, 1, 1, 9, 30, 0, 0, some 0⟩
        (handlerC4.loadHistoricalData barsC4).1.ohlcv.data
      = some ⟨160, 160, 160, 160, 500⟩ ∧
    (handlerC4.loadHistoricalData barsC4).2.1 = barsC4 ∧
    (handlerC4.loadHistoricalData barsC4).2.1
      ≠ [(⟨2022, 1, 1, 9, 31, 0, 0, some 0⟩, ⟨151, 152, 150, 152, 12000⟩)] := by
  refine ⟨?_, ?_, ?_⟩ <;> decide

/-! ## The in-memory subscription registry (websocket_manager.py)

`WebSocketManager.active_subscriptions : Dict[str, Dict[str, Set[int]]]`
maps symbol → subscription type → set of user ids.  Python dicts are
modelled as association lists (insertion-ordered, unique keys); sets of user
ids as duplicate-free lists.  Whether an upstream websocket send succeeds
(`_subscribe_symbol` / `_unsubscribe_symbol` return `True`: state is
`CONNECTED` and `websocket.send` does not raise) is the oracle `sendOk`. -/

abbrev UserId := ℤ

abbrev Registry := List (String × List (String × List UserId))

/-- `str.upper()` on the ASCII symbols this service deals with. -/
def pyUpper (s : String) : String := ⟨s.data.map Char.toUpper⟩

/-- Python `d.get(key)` / `key in d` on an association list. -/
def lookupA {α : Type} (key : String) : List (String × α) → Option α
  | [] => none
  | (k, v) :: rest => if key = k then some v else lookupA key rest

/-- `symbol in active_subscriptions and type in active_subscriptions[symbol]`,
returning the user set when both hold. -/
def lookupType (reg : Registry) (symbol ty : String) : Option (List UserId) :=
  match lookupA symbol reg with
  | none => none
  | some tyMap => lookupA ty tyMap

/-- `AlpacaSubscriptionSettings.get_config(t).max_symbols`: trades and quotes
are capped at 30, bars is uncapped; `getattr`'s fallback returns the trades
config (cap 30) for any unknown type. -/
def maxSymbols (ty : String) : Option ℕ :=
  if ty = "trades" then some 30
  else if ty = "quotes" then some 30
  else if ty = "bars" then none
  else some 30

/-- The `subscription_type` label the fallback config stamps into the
control frame: unknown types produce a `"trades"` frame. -/
def configType (ty : String) : String :=
  if ty = "trades" then "trades"
  else if ty = "quotes" then "quotes"
  else if ty = "bars" then "bars"
  else "trades"

/-- An upstream control frame
`{"action": "subscribe"|"unsubscribe", <type>: [symbol]}`. -/
inductive Frame where
  | subscribe (symbol ty : String)
  | unsubscribe (symbol ty : String)
deriving DecidableEq, Repr

/-- The visible outcome of one `subscribe`/`unsubscribe` call: the registry
afterwards, the upstream frames actually sent, and the returned boolean. -/
structure WsCallResult where
  registry : Registry
  frames : List Frame
  ok : Bool
deriving DecidableEq, Repr

/-- Add `uid` to `tyMap[ty]`, creating the entry if needed (the source's
`if subscription_type not in ...: ... = set()` followed by `.add`). -/
def addUserTy (ty : String) (uid : UserId) :
    List (String × List UserId) → List (String × List UserId)
  | [] => [(ty, [uid])]
  | (t, users) :: rest =>
    if ty = t then (t, if uid ∈ users then users else users ++ [uid]) :: rest
    else (t, users) :: addUserTy ty uid rest

/-- Add `uid` under `(symbol, ty)`, creating intermediate maps as needed. -/
def addUser (symbol ty : String) (uid : UserId) : Registry → Registry
  | [] => [(symbol, [(ty, [uid])])]
  | (s, tyMap) :: rest =>
    if symbol = s then (s, addUserTy ty uid tyMap) :: rest
    else (s, tyMap) :: addUser symbol ty uid rest

/-- `active_subscriptions[symbol][subscription_type].discard(user_id)` with
the empty-structure cleanup of the last-user branch: delete the type entry
when its set empties, and the symbol entry when its map empties. -/
def removeUserPruneTy (ty : String) (uid : UserId) :
    List (String × List UserId) → List (String × List UserId)
  | [] => []
  | (t, users) :: rest =>
    if ty = t then
      (let users' := users.erase uid
       if users' = [] then rest else (t, users') :: rest)
    else (t, users) :: removeUserPruneTy ty uid rest

def removeUserPrune (symbol ty : String) (uid : UserId) : Registry → Registry
  | [] => []
  | (s, tyMap) :: rest =>
    if symbol = s then
      (let tyMap' := removeUserPruneTy ty uid tyMap
       if tyMap' = [] then rest else (s, tyMap') :: rest)
    else (s, tyMap) :: removeUserPrune symbol ty uid rest

/-- `discard` without any pruning (the not-last-user branch). -/
def discardUserTy (ty : String) (uid : UserId) :
    List (String × List UserId) → List (String × List UserId)
  | [] => []
  | (t, users) :: rest =>
    if ty = t then (t, users.erase uid) :: rest
    else (t, users) :: discardUserTy ty uid rest

def discardUser (symbol ty : String) (uid : UserId) : Registry → Registry
  | [] => []
  | (s, tyMap) :: rest =>
    if symbol = s then (s, discardUserTy ty uid tyMap) :: rest
    else (s, tyMap) :: discardUser symbol ty uid rest

/-- `WebSocketManager.subscribe(symbol, user_id, subscription_type)`.
Checks the per-type symbol cap, returns `True` without a frame when the
`(symbol, type)` combo already exists (adding the user), otherwise sends the
subscribe frame via `_subscribe_symbol` and only on success creates the
registry entry; a failed send leaves the registry untouched and returns
`False`. -/
def wsSubscribe (reg : Registry) (symbol : String) (uid : UserId)
    (ty : String) (sendOk : Bool) : WsCallResult :=
  let symbolU := pyUpper symbol
  let currentCount := (reg.filter (fun e => (lookupA ty e.2).isSome)).length
  let overLimit :=
    match maxSymbols ty with
    | some m => decide (m ≤ currentCount)
    | none => false
  if overLimit then ⟨reg, [], false⟩
  else
    match lookupType reg symbolU ty with
    | some users =>
      if uid ∈ users then ⟨reg, [], true⟩
      else ⟨addUser symbolU ty uid reg, [], true⟩
    | none =>
      if sendOk then
        ⟨addUser symbolU ty uid reg, [Frame.subscribe symbolU (configType ty)], true⟩
      else ⟨reg, [], false⟩

/-- `WebSocketManager.unsubscribe(symbol, user_id, subscription_type)`.
Unknown `(symbol, type)` or unknown user: return `True`, change nothing.
Last user: send the unsubscribe frame first; on failure return `False`
*without* touching the registry; on success discard the user and prune the
empty entries.  Otherwise just discard the user. -/
def wsUnsubscribe (reg : Registry) (symbol : String) (uid : UserId)
    (ty : String) (sendOk : Bool) : WsCallResult :=
  let symbolU := pyUpper symbol
  match lookupType reg symbolU ty with
  | none => ⟨reg, [], true⟩
  | some users =>
    if uid ∉ users then ⟨reg, [], true⟩
    else if users.length = 1 then
      if sendOk then
        ⟨removeUserPrune symbolU ty uid reg,
          [Frame.unsubscribe symbolU (configType ty)], true⟩
      else ⟨reg, [], false⟩
    else ⟨discardUser symbolU ty uid reg, [], true⟩

/-! ## C5 — frames sent exactly at first-subscriber / last-subscriber

We run an arbitrary sequence of subscribe/unsubscribe calls for one fixed
`(symbol, type)` against the registry and show the frames are exactly those
of a registry-free specification over the abstract subscriber set: a
subscribe frame is emitted precisely by a call that takes the set from empty
to nonempty, an unsubscribe frame precisely by a call that empties it, and
when that happens the registry has no entry for the symbol at all. -/

/-- One call for the fixed `(symbol, type)`: which principal, and whether an
upstream send (if one is attempted) would succeed. -/
inductive RegOp where
  | sub (uid : UserId) (sendOk : Bool)
  | unsub (uid : UserId) (sendOk : Bool)
deriving DecidableEq, Repr

def runRegOps (symbol ty : String) : Registry → List RegOp → Registry × List Frame
  | reg, [] => (reg, [])
  | reg, op :: rest =>
    let r :=
      match op with
      | RegOp.sub uid ok => wsSubscribe reg symbol uid ty ok
      | RegOp.unsub uid ok => wsUnsubscribe reg symbol uid ty ok
    let next := runRegOps symbol ty r.registry rest
    (next.1, r.frames ++ next.2)

/-- The registry-free specification of the frame protocol, straight from the
spec's words: subscribe frame exactly when the first subscriber arrives,
unsubscribe frame exactly when the last one leaves; a failed send leaves the
abstract state unchanged. -/
def specStep (symbol ty : String) (s : Finset UserId) :
    RegOp → Finset UserId × List Frame
  | RegOp.sub uid ok =>
    if s = ∅ then
      if ok then ({uid}, [Frame.subscribe symbol (configType ty)]) else (∅, [])
    else (insert uid s, [])
  | RegOp.unsub uid ok =>
    if uid ∈ s then
      if s = {uid} then
        if ok then (∅, [Frame.unsubscribe symbol (configType ty)]) else (s, [])
      else (s.erase uid, [])
    else (s, [])

def specRun (symbol ty : String) : Finset UserId → List RegOp →
    Finset UserId × List Frame
  | s, [] => (s, [])
  | s, op :: rest =>
    let r := specStep symbol ty s op
    let next := specRun symbol ty r.1 rest
    (next.1, r.2 ++ next.2)

/-- Refinement relation between the concrete registry (touched only at the
fixed `(symbol, type)`, starting empty) and the abstract subscriber set. -/
def RegRel (symbol ty : String) (reg : Registry) (s : Finset UserId) : Prop :=
  (reg = [] ∧ s = ∅) ∨
  (∃ users : List UserId, users ≠ [] ∧ users.Nodup ∧ users.toFinset = s ∧
    reg = [(symbol, [(ty, users)])])

theorem maxSymbols_cases (ty : String) :
    maxSymbols ty = none ∨ maxSymbols ty = some 30 := by
  unfold maxSymbols
  split_ifs <;> simp

/-- The per-type symbol cap never fires while at most one symbol holds the
type (the cap is 30 for trades/quotes/fallback and absent for bars), so
`subscribe` reduces to its post-cap body. -/
theorem wsSubscribe_not_over (reg : Registry) (symbol : String) (uid : UserId)
    (ty : String) (sendOk : Bool)
    (hcnt : (reg.filter (fun e => (lookupA ty e.2).isSome)).length ≤ 1) :
    wsSubscribe reg symbol uid ty sendOk =
      match lookupType reg (pyUpper symbol) ty with
      | some users =>
        if uid ∈ users then ⟨reg, [], true⟩
        else ⟨addUser (pyUpper symbol) ty uid reg, [], true⟩
      | none =>
        if sendOk then
          ⟨addUser (pyUpper symbol) ty uid reg,
            [Frame.subscribe (pyUpper symbol) (configType ty)], true⟩
        else ⟨reg, [], false⟩ := by
  have hov : (match maxSymbols ty with
      | some m =>
        decide (m ≤ (reg.filter (fun e => (lookupA ty e.2).isSome)).length)
      | none => false) = false := by
    rcases maxSymbols_cases ty with hms | hms
    · rw [hms]
    · rw [hms]
      simp only [decide_eq_false_iff_not]
      omega
  simp only [wsSubscribe, hov, Bool.false_eq_true, if_false]

theorem regRel_step {symbol ty : String} (hcanon : pyUpper symbol = symbol)
    {reg : Registry} {s : Finset UserId} (hrel : RegRel symbol ty reg s)
    (op : RegOp) :
    (match op with
      | RegOp.sub uid ok => wsSubscribe reg symbol uid ty ok
      | RegOp.unsub uid ok => wsUnsubscribe reg symbol uid ty ok).frames
      = (specStep symbol ty s op).2 ∧
    RegRel symbol ty
      (match op with
        | RegOp.sub uid ok => wsSubscribe reg symbol uid ty ok
        | RegOp.unsub uid ok => wsUnsubscribe reg symbol uid ty ok).registry
      (specStep symbol ty s op).1 := by
  rcases hrel with ⟨hreg, hs⟩ | ⟨users, hne, hnd, hfin, hreg⟩
  -- empty registry, empty abstract set
  · subst hreg hs
    cases op with
    | sub uid ok =>
      dsimp only
      rw [wsSubscribe_not_over ([] : Registry) symbol uid ty ok (by simp)]
      cases ok with
      | true =>
        refine ⟨?_, Or.inr ⟨[uid], by simp, by simp, by simp [specStep], ?_⟩⟩
        · simp [specStep, hcanon, lookupType, lookupA]
        · simp [hcanon, lookupType, lookupA, addUser]
      | false =>
        refine ⟨?_, Or.inl ⟨?_, by simp [specStep]⟩⟩
        · simp [specStep, hcanon, lookupType, lookupA]
        · simp [hcanon, lookupType, lookupA]
    | unsub uid ok =>
      refine ⟨?_, Or.inl ⟨?_, by simp [specStep]⟩⟩
      · simp [wsUnsubscribe, specStep, hcanon, lookupType, lookupA]
      · simp [wsUnsubscribe, hcanon, lookupType, lookupA]
  -- singleton registry entry for (symbol, ty) with subscriber list `users`
  · subst hreg
    have hsne : s ≠ ∅ := by
      rw [← hfin]
      cases users with
      | nil => exact absurd rfl hne
      | cons u us => simp
    have hlook : lookupType [(symbol, [(ty, users)])] symbol ty
        = some users := by
      simp [lookupType, lookupA]
    cases op with
    | sub uid ok =>
      dsimp only
      rw [wsSubscribe_not_over [(symbol, [(ty, users)])] symbol uid ty ok
        (by simp [lookupA])]
      by_cases hmem : uid ∈ users
      · have hmemf : uid ∈ s := by
          rw [← hfin]
          simpa using hmem
        refine ⟨?_, ?_⟩
        · simp [specStep, hcanon, hlook, hmem, hsne]
        · rw [specStep]
          simp only [if_neg hsne]
          refine Or.inr ⟨users, hne, hnd, ?_, ?_⟩
          · rw [hfin]
            exact (Finset.insert_eq_self.mpr hmemf).symm
          · simp [hcanon, hlook, hmem]
      · refine ⟨?_, ?_⟩
        · simp [specStep, hcanon, hlook, hmem, hsne]
        · rw [specStep]
          simp only [if_neg hsne]
          refine Or.inr ⟨users ++ [uid], by simp, ?_, ?_, ?_⟩
          · simp [List.nodup_append, hnd, hmem]
          · rw [← hfin]
            ext x
            simp [or_comm]
          · simp [hcanon, hlook, hmem, addUser, addUserTy]
    | unsub uid ok =>
      by_cases hmem : uid ∈ users
      · have hmemf : uid ∈ s := by
          rw [← hfin]
          simpa using hmem
        by_cases hlen : users.length = 1
        · have husers : users = [uid] := by
            cases users with
            | nil => simp at hlen
            | cons u us =>
              cases us with
              | nil =>
                rcases List.mem_singleton.mp hmem with rfl
                rfl
              | cons u' us' => simp at hlen
          subst husers
          have hsingle : s = {uid} := by
            rw [← hfin]
            rfl
          cases ok with
          | true =>
            refine ⟨?_, ?_⟩
            · simp [wsUnsubscribe, specStep, hcanon, hlook, hmemf, hsingle]
            · rw [specStep]
              simp only [if_pos hmemf, if_pos hsingle, if_pos rfl]
              refine Or.inl ⟨?_, rfl⟩
              simp [wsUnsubscribe, hcanon, hlook, removeUserPrune,
                removeUserPruneTy]
          | false =>
            refine ⟨?_, ?_⟩
            · simp [wsUnsubscribe, specStep, hcanon, hlook, hmemf, hsingle]
            · rw [specStep]
              simp only [if_pos hmemf, if_pos hsingle]
              refine Or.inr ⟨[uid], by simp, by simp, by simpa using hfin, ?_⟩
              simp [wsUnsubscribe, hcanon, hlook]
        · have hsne2 : s ≠ {uid} := by
            intro hcontr
            have hcard : users.toFinset.card = 1 := by
              rw [hfin, hcontr]
              rfl
            rw [List.toFinset_card_of_nodup hnd] at hcard
            exact hlen hcard
          have h2 : 2 ≤ users.length := by
            have h0 : 0 < users.length :=
              List.length_pos.mpr (List.ne_nil_of_mem hmem)
            omega
          have herasene : users.erase uid ≠ [] := by
            intro hcontr
            have hle := List.length_erase_of_mem hmem
            rw [hcontr] at hle
            simp only [List.length_nil] at hle
            omega
          refine ⟨?_, ?_⟩
          · simp [wsUnsubscribe, specStep, hcanon, hlook, hmem, hmemf, hsne2, hlen]
          · rw [specStep]
            simp only [if_pos hmemf, if_neg hsne2]
            refine Or.inr ⟨users.erase uid, herasene, hnd.erase uid, ?_, ?_⟩
            · ext x
              simp only [List.mem_toFinset, Finset.mem_erase,
                List.Nodup.mem_erase_iff hnd, ← hfin]
            · simp [wsUnsubscribe, hcanon, hlook, hmem, hlen, discardUser,
                discardUserTy]
      · have hmemf : uid ∉ s := by
          rw [← hfin]
          simpa using hmem
        refine ⟨?_, ?_⟩
        · simp [wsUnsubscribe, specStep, hcanon, hlook, hmem, hmemf]
        · rw [specStep]
          simp only [if_neg hmemf]
          refine Or.inr ⟨users, hne, hnd, hfin, ?_⟩
          simp [wsUnsubscribe, hcanon, hlook, hmem]

theorem regRel_run {symbol ty : String} (hcanon : pyUpper symbol = symbol) :
    ∀ (ops : List RegOp) (reg : Registry) (s : Finset UserId),
      RegRel symbol ty reg s →
      (runRegOps symbol ty reg ops).2 = (specRun symbol ty s ops).2 ∧
      RegRel symbol ty (runRegOps symbol ty reg ops).1
        (specRun symbol ty s ops).1 := by
  intro ops
  induction ops with
  | nil =>
    intro reg s h
    exact ⟨rfl, h⟩
  | cons op rest ih =>
    intro reg s h
    obtain ⟨hf, hr⟩ := regRel_step hcanon h op
    obtain ⟨hf', hr'⟩ := ih _ _ hr
    constructor
    · simp only [runRegOps, specRun]
      rw [hf, hf']
    · simp only [runRegOps, specRun]
      exact hr'

/-- C5: running any sequence of subscribe/unsubscribe calls for one
`(symbol, type)` from an empty registry emits exactly the frames of the
abstract protocol — one subscribe frame on each call that adds the first
subscriber, one unsubscribe frame on each call that removes the last
subscriber, nothing on any other call — and the registry holds an entry for
the symbol exactly while the abstract subscriber set is nonempty (so after
the last removal the symbol is gone). -/
theorem subscribe_unsubscribe_frame_protocol (symbol ty : String)
    (hcanon : pyUpper symbol = symbol) (ops : List RegOp) :
    (runRegOps symbol ty [] ops).2 = (specRun symbol ty ∅ ops).2 ∧
    (lookupA symbol (runRegOps symbol ty [] ops).1 = none ↔
      (specRun symbol ty ∅ ops).1 = ∅) := by
  have h := @regRel_run symbol ty hcanon ops [] ∅ (Or.inl ⟨rfl, rfl⟩)
  refine ⟨h.1, ?_⟩
  rcases h.2 with ⟨hreg, hs⟩ | ⟨users, hne, hnd, hfin, hreg⟩
  · rw [hreg, hs]
    simp [lookupA]
  · rw [hreg]
    constructor
    · intro hlk
      simp [lookupA] at hlk
    · intro hs
      rw [← hfin] at hs
      exact absurd (List.toFinset_eq_empty_iff _ |>.mp hs) hne

/-- Spec scenarios 3 and 4: `P1` and `P2` subscribe to `AAPL` trades, then
both unsubscribe. -/
def opsEx : List RegOp :=
  [RegOp.sub 1 true, RegOp.sub 2 true, RegOp.unsub 1 true, RegOp.unsub 2 true]

theorem subscribe_unsubscribe_frame_protocol_witness :
    pyUpper "AAPL" = "AAPL" ∧
    (runRegOps "AAPL" "trades" [] opsEx).2 =
      [Frame.subscribe "AAPL" "trades", Frame.unsubscribe "AAPL" "trades"] ∧
    lookupA "AAPL" (runRegOps "AAPL" "trades" [] opsEx).1 = none ∧
    ((runRegOps "AAPL" "trades" [] opsEx).2 =
        (specRun "AAPL" "trades" ∅ opsEx).2 ∧
      (lookupA "AAPL" (runRegOps "AAPL" "trades" [] opsEx).1 = none ↔
        (specRun "AAPL" "trades" ∅ opsEx).1 = ∅)) :=
  ⟨by decide, by decide, by decide,
    subscribe_unsubscribe_frame_protocol "AAPL" "trades" (by decide) opsEx⟩

/-! ## C6 — failed upstream send on a last-subscriber unsubscribe

The claim (and the spec) say the registry nevertheless reflects the desired
state — principal removed, empty entry pruned.  The source instead returns
`False` *before* the `discard`, leaving the registry untouched. -/

/-- C6 (amended): when the last principal for `(symbol, type)` unsubscribes
and the upstream unsubscribe send fails, the call returns `False` and the
registry is left *unchanged*: the principal is still registered and the
entry is not pruned. -/
theorem unsubscribe_send_failure_leaves_registry (reg : Registry)
    (symbol ty : String) (uid : UserId) (hcanon : pyUpper symbol = symbol)
    (hlast : lookupType reg symbol ty = some [uid]) :
    wsUnsubscribe reg symbol uid ty false = ⟨reg, [], false⟩ := by
  simp [wsUnsubscribe, hcanon, hlast]

theorem unsubscribe_send_failure_leaves_registry_witness :
    wsUnsubscribe [("AAPL", [("trades", [1])])] "AAPL" 1 "trades" false
      = ⟨[("AAPL", [("trades", [1])])], [], false⟩ :=
  unsubscribe_send_failure_leaves_registry _ "AAPL" "trades" 1
    (by decide) (by decide)

/-- C6 counterexample: principal 1 is the last trades-subscriber of `AAPL`;
the upstream send fails.  The claim says principal 1 is removed and the
entry pruned; the code leaves the registry exactly as it was (principal
still present) and returns `False`. -/
theorem unsubscribe_send_failure_counterexample :
    (wsUnsubscribe [("AAPL", [("trades", [1])])] "AAPL" 1 "trades"
        false).registry = [("AAPL", [("trades", [1])])] ∧
    lookupType (wsUnsubscribe [("AAPL", [("trades", [1])])] "AAPL" 1 "trades"
        false).registry "AAPL" "trades" = some [1] ∧
    (wsUnsubscribe [("AAPL", [("trades", [1])])] "AAPL" 1 "trades"
        false).ok = false := by
  refine ⟨?_, ?_, ?_⟩ <;> decide

/-! ## C10 — unsubscribe of an unknown (symbol, type) or principal -/

/-- C10: unsubscribing a `(symbol, type)` with no registry entry, or a
principal that is not in its subscriber set, returns `True`, sends no
upstream frame and leaves the registry unchanged. -/
theorem unsubscribe_missing_is_noop (reg : Registry) (symbol ty : String)
    (uid : UserId) (sendOk : Bool) (hcanon : pyUpper symbol = symbol)
    (hno : ∀ users, lookupType reg symbol ty = some users → uid ∉ users) :
    wsUnsubscribe reg symbol uid ty sendOk = ⟨reg, [], true⟩ := by
  rcases hlt : lookupType reg symbol ty with _ | users
  · simp [wsUnsubscribe, hcanon, hlt]
  · simp [wsUnsubscribe, hcanon, hlt, hno users hlt]

theorem unsubscribe_missing_is_noop_witness :
    wsUnsubscribe [("AAPL", [("trades", [2])])] "AAPL" 1 "trades" true
      = ⟨[("AAPL", [("trades", [2])])], [], true⟩ ∧
    wsUnsubscribe [] "MSFT" 7 "trades" true = ⟨[], [], true⟩ :=
  ⟨unsubscribe_missing_is_noop _ "AAPL" "trades" 1 true (by decide)
      (by
        intro users h
        injection h with h
        subst h
        decide),
    unsubscribe_missing_is_noop [] "MSFT" "trades" 7 true (by decide)
      (by
        intro users h
        simp [lookupType, lookupA] at h)⟩

/-! ## C9 — the reconnect backoff (`WebSocketManager._auto_reconnect`)

Constructor constants: `_max_reconnect_attempts = 5`, `_reconnect_delay = 2`,
`_max_reconnect_delay = 60`.  The method first increments
`_consecutive_failures` (capping it at 20), then loops attempts `1..5`;
before attempt `i` it sleeps
`min(2·i · min(2^(failures−1), 8), 60)` seconds and then tries `connect()`,
whose outcome we take from the `connectResults` oracle (missing entries =
failure).  On a successful connect the loop stops; the source then resets
the failure counter and assigns `self._last_connected = time.time()` even
though `time` is never imported — every delay has already been slept by
that point, so the delay schedule modelled here is unaffected. -/

def reconnectAttempts (failures : ℕ) : ℕ → ℕ → List Bool → List ℕ × Bool
  | 0, _, _ => ([], false)
  | n + 1, attempt, connectResults =>
    let baseDelay := 2 * attempt
    let backoffMultiplier := min (2 ^ (failures - 1)) 8
    let delay := min (baseDelay * backoffMultiplier) 60
    match connectResults with
    | [] =>
      let rest := reconnectAttempts failures n (attempt + 1) []
      (delay :: rest.1, rest.2)
    | r :: rs =>
      if r then ([delay], true)
      else
        let rest := reconnectAttempts failures n (attempt + 1) rs
        (delay :: rest.1, rest.2)

/-- `_auto_reconnect`, applied to the failure counter as it stood *before*
the call; returns the delays slept (one per executed attempt, in order) and
whether some attempt's connect succeeded. -/
def autoReconnect (consecutiveFailures : ℕ) (connectResults : List Bool) :
    List ℕ × Bool :=
  let failures := min (consecutiveFailures + 1) 20
  reconnectAttempts failures 5 1 connectResults

theorem reconnectAttempts_delay_get (failures : ℕ) :
    ∀ (n attempt : ℕ) (results : List Bool) (i : ℕ),
      (reconnectAttempts failures n attempt results).1.get? i =
        if i < (reconnectAttempts failures n attempt results).1.length then
          some (min (2 * (attempt + i) * min (2 ^ (failures - 1)) 8) 60)
        else none := by
  intro n
  induction n with
  | zero =>
    intro attempt results i
    simp [reconnectAttempts]
  | succ n ih =>
    intro attempt results i
    have hshift : ∀ (tl : List ℕ) (d j : ℕ),
        tl.get? j = (if j < tl.length then
            some (min (2 * (attempt + 1 + j) * min (2 ^ (failures - 1)) 8) 60)
          else none) →
        (d :: tl).get? (j + 1) = (if j + 1 < tl.length + 1 then
            some (min (2 * (attempt + (j + 1)) * min (2 ^ (failures - 1)) 8) 60)
          else none) := by
      intro tl d j htl
      rw [List.get?_cons_succ, htl,
        show attempt + 1 + j = attempt + (j + 1) by omega]
      split_ifs <;> first | rfl | omega
    cases results with
    | nil =>
      cases i with
      | zero => simp [reconnectAttempts]
      | succ i =>
        simp only [reconnectAttempts, List.length_cons]
        exact hshift _ _ i (by simpa using ih (attempt + 1) [] i)
    | cons r rs =>
      by_cases hr : r = true
      · subst hr
        cases i with
        | zero => simp [reconnectAttempts]
        | succ i => simp [reconnectAttempts]
      · rw [Bool.not_eq_true] at hr
        subst hr
        cases i with
        | zero => simp [reconnectAttempts]
        | succ i =>
          simp only [reconnectAttempts, List.length_cons]
          exact hshift _ _ i (by simpa using ih (attempt + 1) rs i)

/-- C9 (amended): before attempt `i` (1-based) of a reconnect round, the
manager waits exactly
`min(2·i · min(2^(f−1), 8), 60)` seconds, where `f = min(f₀+1, 20)` and `f₀`
is the number of consecutive failed rounds before this one — the delay *does*
depend on how many earlier rounds failed, through the extra backoff
multiplier `min(2^(f−1), 8)`.  (With `f₀ = 0` this reduces to the claimed
`min(2·i, 60)`.) -/
theorem auto_reconnect_delay_schedule (consecutiveFailures : ℕ)
    (results : List Bool) (i : ℕ)
    (h : i < (autoReconnect consecutiveFailures results).1.length) :
    (autoReconnect consecutiveFailures results).1.get? i =
      some (min (2 * (1 + i) *
        min (2 ^ (min (consecutiveFailures + 1) 20 - 1)) 8) 60) := by
  have := reconnectAttempts_delay_get (min (consecutiveFailures + 1) 20) 5 1
    results i
  rw [autoReconnect] at h ⊢
  rw [this, if_pos h]

theorem auto_reconnect_delay_schedule_witness :
    0 < (autoReconnect 0 [false, false, false, false, false]).1.length ∧
    (autoReconnect 0 [false, false, false, false, false]).1.get? 0 = some 2 := by
  refine ⟨by decide, ?_⟩
  have := auto_reconnect_delay_schedule 0 [false, false, false, false, false] 0
    (by decide)
  simpa using this

/-- C9 counterexample: the claim says each round waits `min(2·i, 60)` before
attempt `i` "regardless of how many earlier rounds have failed".  After one
earlier failed round (`_consecutive_failures = 1`), the delays of a full
round are `[4, 8, 12, 16, 20]`, not the claimed `[2, 4, 6, 8, 10]` (which is
what a first round produces): the first wait is 4 s, not `min(2·1, 60) = 2`. -/
theorem auto_reconnect_round_two_delays_counterexample :
    (autoReconnect 1 [false, false, false, false, false]).1 = [4, 8, 12, 16, 20] ∧
    (autoReconnect 0 [false, false, false, false, false]).1 = [2, 4, 6, 8, 10] ∧
    (4 : ℕ) ≠ min (2 * 1) 60 := by
  refine ⟨?_, ?_, ?_⟩ <;> decide

/-! ## C7 — ordering inside `create_persistent_subscription` (main.py)

The endpoint first calls `persistent_manager.subscribe_user` (the
persistent-store subscribe), and only then — when the symbol has no handler
in `data_aggregator.get_all_symbols()` — calls
`manager.add_user_subscription`, which sends the upstream subscribe frame.
No aggregator handler is created anywhere in this path: the shipped
`SubscriptionManager.__init__` accepts no `on_handler_create_callback`
(main.py and the tests pass one, which `__init__` rejects), and handlers are
created lazily by `TradeDataAggregator._process_market_data` when the first
market-data event for the symbol arrives. -/

inductive OrchestrationAction where
  | persistentSubscribe
  | upstreamSubscribe
  | aggregatorCreate
deriving DecidableEq, Repr

/-- `create_persistent_subscription`, as the ordered list of data-plane
actions it performs plus its success, given: whether the persistent upsert
succeeds, whether the symbol already has a handler
(`symbol in data_aggregator.get_all_symbols()`), and whether the websocket
subscribe succeeds. -/
def createPersistentSubscription (persistOk symbolTracked wsOk : Bool) :
    List OrchestrationAction × Bool :=
  if persistOk = false then ([OrchestrationAction.persistentSubscribe], false)
  else if symbolTracked = false then
    ([OrchestrationAction.persistentSubscribe,
      OrchestrationAction.upstreamSubscribe], wsOk)
  else ([OrchestrationAction.persistentSubscribe], true)

/-- C7: evaluation at the failing input (a successful subscribe for a fresh
symbol).  The persistent-store subscribe is performed *first*, the upstream
subscribe frame second, and no aggregator is created at all — the reverse of
the claimed "aggregator creation before upstream subscribe before persistent
subscribe". -/
theorem create_persistent_subscription_persist_first :
    (createPersistentSubscription true false true).2 = true ∧
    (createPersistentSubscription true false true).1 =
      [OrchestrationAction.persistentSubscribe,
        OrchestrationAction.upstreamSubscribe] ∧
    OrchestrationAction.aggregatorCreate ∉
      (createPersistentSubscription true false true).1 := by
  refine ⟨?_, ?_, ?_⟩ <;> decide

/-! ## C8 — SSE slot initialization and frame order

`stream_stock_data` (main.py) installs a fresh bounded queue as the slot
for `(symbol, principal)`; if the handler has candles it immediately
enqueues a full snapshot with `is_initial=True` and sets the queue's
`_initialized` attribute.  `broadcast_update` enqueues an update on a slot
iff `update.is_initial or hasattr(queue, "_initialized")`; after a
successful put of an initial update it marks the slot initialized; a failed
put (queue full or error) removes the slot.  The frames the client receives
are the queue contents in FIFO order, so we record enqueued frames in
order.  -/

structure SSEUpdate where
  isInitial : Bool
  payload : ℕ
deriving DecidableEq, Repr

structure SSESlot where
  queued : List SSEUpdate
  initialized : Bool
  alive : Bool
deriving DecidableEq, Repr

/-- Opening a stream: snapshot enqueued and slot marked initialized iff the
handler's `candle_data` is nonempty. -/
def openSlot (snapshotNonempty : Bool) (payload : ℕ) : SSESlot :=
  if snapshotNonempty then ⟨[⟨true, payload⟩], true, true⟩
  else ⟨[], false, true⟩

/-- One `broadcast_update` pass as seen by this slot; `putFails` is the
oracle for `put_nowait` raising (queue full or broken). -/
def broadcastStep (s : SSESlot) (u : SSEUpdate) (putFails : Bool) : SSESlot :=
  if s.alive then
    if u.isInitial || s.initialized then
      if putFails then { s with alive := false }
      else ⟨s.queued ++ [u], s.initialized || u.isInitial, true⟩
    else s
  else s

def runBroadcasts (s : SSESlot) : List (SSEUpdate × Bool) → SSESlot
  | [] => s
  | (u, f) :: rest => runBroadcasts (broadcastStep s u f) rest

/-- The slot invariant: an uninitialized slot has received nothing, an
initialized slot has received something, and the first frame received is an
initial snapshot. -/
def SlotInv (s : SSESlot) : Prop :=
  (s.initialized = false → s.queued = []) ∧
  (s.initialized = true → s.queued ≠ []) ∧
  (∀ u, s.queued.head? = some u → u.isInitial = true)

theorem slotInv_broadcastStep {s : SSESlot} (hs : SlotInv s)
    (u : SSEUpdate) (f : Bool) : SlotInv (broadcastStep s u f) := by
  obtain ⟨h1, h2, h3⟩ := hs
  unfold broadcastStep
  by_cases ha : s.alive = true
  · rw [if_pos ha]
    by_cases hc : (u.isInitial || s.initialized) = true
    · rw [if_pos hc]
      by_cases hf : f = true
      · rw [if_pos hf]
        exact ⟨h1, h2, h3⟩
      · rw [Bool.not_eq_true] at hf
        subst hf
        rw [if_neg (by simp)]
        refine ⟨?_, ?_, ?_⟩
        · intro hinit
          simp only [Bool.or_eq_false_iff] at hinit
          rcases Bool.or_eq_true_iff.mp hc with h | h
          · exact absurd h (by simp [hinit.2])
          · exact absurd h (by simp [hinit.1])
        · intro _
          simp
        · intro v hv
          by_cases hq : s.queued = []
          · simp only [hq, List.nil_append, List.head?_cons,
              Option.some.injEq] at hv
            subst hv
            rcases Bool.or_eq_true_iff.mp hc with h | h
            · exact h
            · exact absurd hq (h2 h)
          · rw [List.head?_append_of_ne_nil _ hq] at hv
            exact h3 v hv
    · rw [if_neg hc]
      exact ⟨h1, h2, h3⟩
  · rw [if_neg ha]
    exact ⟨h1, h2, h3⟩

theorem slotInv_runBroadcasts :
    ∀ (events : List (SSEUpdate × Bool)) (s : SSESlot), SlotInv s →
      SlotInv (runBroadcasts s events) := by
  intro events
  induction events with
  | nil => intro s hs; exact hs
  | cons e rest ih =>
    intro s hs
    exact ih _ (slotInv_broadcastStep hs e.1 e.2)

/-- C8 (amended): on any SSE slot, whatever broadcasts occur after the
stream opens, the *first* frame enqueued for delivery has
`is_initial = true`, and no frame at all (in particular no delta) is
enqueued while the slot is not yet marked initialized.  (Subsequent frames
are *not* all `is_initial = false`: a later initial broadcast is also
delivered — see the counterexample.) -/
theorem sse_first_frame_initial (snapshotNonempty : Bool) (payload : ℕ)
    (events : List (SSEUpdate × Bool)) :
    ((runBroadcasts (openSlot snapshotNonempty payload) events).initialized
        = false →
      (runBroadcasts (openSlot snapshotNonempty payload) events).queued = []) ∧
    (∀ u, (runBroadcasts (openSlot snapshotNonempty payload)
        events).queued.head? = some u → u.isInitial = true) := by
  have hinv : SlotInv (openSlot snapshotNonempty payload) := by
    unfold openSlot SlotInv
    by_cases h : snapshotNonempty = true
    · rw [if_pos h]
      refine ⟨by simp, by simp, ?_⟩
      intro u hu
      simp only [List.head?_cons, Option.some.injEq] at hu
      subst hu
      rfl
    · rw [Bool.not_eq_true] at h
      subst h
      rw [if_neg (by simp)]
      exact ⟨fun _ => rfl, by simp, by simp⟩
  obtain ⟨h1, h2, h3⟩ := slotInv_runBroadcasts events _ hinv
  exact ⟨h1, h3⟩

theorem sse_first_frame_initial_witness :
    (runBroadcasts (openSlot true 0) [(⟨false, 1⟩, false)]).queued.head?
        = some ⟨true, 0⟩ ∧
    (⟨true, 0⟩ : SSEUpdate).isInitial = true :=
  ⟨by decide,
    (sse_first_frame_initial true 0 [(⟨false, 1⟩, false)]).2 ⟨true, 0⟩
      (by decide)⟩

/-- C8 counterexample: a slot opened with a nonempty snapshot receives a
later `is_initial=true` broadcast (the history backfill completing emits
one): the delivered sequence is `[initial, initial]` — the second frame has
`is_initial = true`, contradicting "every subsequent frame has
`is_initial=false`". -/
theorem sse_second_frame_initial_counterexample :
    (runBroadcasts (openSlot true 0) [(⟨true, 1⟩, false)]).queued
      = [⟨true, 0⟩, ⟨true, 1⟩] ∧
    ((runBroadcasts (openSlot true 0) [(⟨true, 1⟩, false)]).queued.get? 1).map
        SSEUpdate.isInitial ≠ some false := by
  refine ⟨?_, ?_⟩ <;> decide

end FinancialAnalyzer
